import Mathlib

/-!
Verification of the glone core (src/extension.ts): URL classification and
normalization, repository-name extraction, workspace inspection, clone
placement, clone execution and the clipboard watcher.

Strings are modelled as Lean `String`s; the character-level work (the
regular-expression tests of the source) is done on `List Char`.  JavaScript's
`String.prototype.trim` is modelled by `trimChars` (the whitespace sets agree
on every character the claims exercise).  `\w` in the source's regexes is
ASCII `[A-Za-z0-9_]`, modelled by `Char.isAlphanum`/underscore.
-/

namespace Glone

/-- `prefixChars.isPrefixOf l`, written out so proofs unfold it step by step.
Models `String.prototype.startsWith`. -/
def startsWithL : List Char → List Char → Bool
  | [], _ => true
  | _ :: _, [] => false
  | p :: ps, c :: cs => if p = c then startsWithL ps cs else false

/-- Models `String.prototype.endsWith`. -/
def endsWithL (s l : List Char) : Bool := startsWithL s.reverse l.reverse

/-- Substring test, models `String.prototype.includes`. -/
def isInfixL : List Char → List Char → Bool
  | n, [] => n.isEmpty
  | n, c :: rest => startsWithL n (c :: rest) || isInfixL n rest

/-- Models `String.prototype.trim` (strip leading and trailing whitespace). -/
def trimChars (l : List Char) : List Char :=
  ((l.dropWhile Char.isWhitespace).reverse.dropWhile Char.isWhitespace).reverse

/-- A character of the regex class `[\w\-\.]` (word characters, hyphen, dot). -/
def isSegChar (c : Char) : Bool := c.isAlphanum || c = '_' || c = '-' || c = '.'

/-- A character of the regex class `[\w\-\.\/]`. -/
def isPathChar (c : Char) : Bool := isSegChar c || c = '/'

/-- A nonempty run of `[\w\-\.]` characters: the regex piece `[\w\-\.]+`. -/
def isSeg (l : List Char) : Bool := !l.isEmpty && l.all isSegChar

/-- A nonempty run of `[\w\-\.\/]` characters: the regex piece `[\w\-\.\/]+`. -/
def isPath (l : List Char) : Bool := !l.isEmpty && l.all isPathChar

/-- Split at the first occurrence of `ch`: `some (before, after)`, or `none`
when `ch` does not occur. -/
def breakOn (ch : Char) : List Char → Option (List Char × List Char)
  | [] => none
  | c :: rest =>
    if c = ch then some ([], rest)
    else
      match breakOn ch rest with
      | none => none
      | some (x, y) => some (c :: x, y)

/-- Split on every `'/'` (like splitting a URL path into groups). -/
def splitSlash : List Char → List (List Char)
  | [] => [[]]
  | c :: rest =>
    if c = '/' then [] :: splitSlash rest
    else
      match splitSlash rest with
      | [] => [[c]]
      | g :: gs => (c :: g) :: gs

/-- The regex piece `https?:\/\/`: strip the scheme, or `none` when absent. -/
def dropScheme (u : List Char) : Option (List Char) :=
  if startsWithL ("http://".data) u then some (u.drop 7)
  else if startsWithL ("https://".data) u then some (u.drop 8)
  else none

/-- Strip one optional trailing `'/'`: the regex piece `\/?$`. -/
def stripSlashOpt (l : List Char) : List Char :=
  if endsWithL ("/".data) l then l.dropLast else l

namespace GitUrlValidator

/-- Group captured by the lazy piece `([^\/]+?)(?:\.git)?$` (and the analogous
pieces with a further optional `\/?`): the shortest nonempty capture, i.e. the
input minus a final `".git"` when one can be split off leaving a nonempty
capture. -/
def stripGitLazy (l : List Char) : List Char :=
  if endsWithL (".git".data) l && decide (5 ≤ l.length) then l.take (l.length - 4) else l

/-- `url.match(/:([^\/]+\/)?([^\/]+?)(?:\.git)?$/)`, capture 2: after a given
`':'`, the remainder must be `X/Y`, `Y`, optionally suffixed `.git`, with `X`,
`Y` nonempty and slash-free; the capture is `Y` minus a lazy `.git`. -/
def sshTailMatch (r : List Char) : Option (List Char) :=
  match breakOn '/' r with
  | none => if r.isEmpty then none else some (stripGitLazy r)
  | some (x, tail) =>
    if x.isEmpty || tail.isEmpty || tail.contains '/' then none
    else some (stripGitLazy tail)

/-- Leftmost-match scan for `/:([^\/]+\/)?([^\/]+?)(?:\.git)?$/`. -/
def sshNameMatch : List Char → Option (List Char)
  | [] => none
  | c :: rest =>
    if c = ':' then
      match sshTailMatch rest with
      | some y => some y
      | none => sshNameMatch rest
    else sshNameMatch rest

/-- `url.match(/\/([^\/]+?)(?:\.git)?(?:\/)?$/)`, capture 1, after a given
`'/'`: the remainder minus one optional trailing `'/'` must be nonempty and
slash-free; the capture drops a lazy `.git`. -/
def stdTailMatch (r : List Char) : Option (List Char) :=
  let t := if endsWithL ("/".data) r then r.dropLast else r
  if t.isEmpty || t.contains '/' then none else some (stripGitLazy t)

/-- Leftmost-match scan for `/\/([^\/]+?)(?:\.git)?(?:\/)?$/`. -/
def stdNameMatch : List Char → Option (List Char)
  | [] => none
  | c :: rest =>
    if c = '/' then
      match stdTailMatch rest with
      | some y => some y
      | none => stdNameMatch rest
    else stdNameMatch rest

/-- Leftmost-match scan for `/([^\/\:]+?)(?:\.git)?$/`: the first position from
which the whole remaining suffix is free of `'/'` and `':'`. -/
def looseNameMatch : List Char → Option (List Char)
  | [] => none
  | c :: rest =>
    if c = '/' || c = ':' then looseNameMatch rest
    else if rest.contains '/' || rest.contains ':' then looseNameMatch rest
    else some (stripGitLazy (c :: rest))

/-- `GitUrlValidator.extractRepositoryName`, the non-SSH fallback chain:
the standard-URL regex, then the loose path regex, then `"repository"`. -/
def extractStd (url : List Char) : List Char :=
  match stdNameMatch url with
  | some n => n
  | none =>
    match looseNameMatch url with
    | some n => n
    | none => "repository".data

/-- `GitUrlValidator.extractRepositoryName` on the character list. -/
def extractRepositoryNameL (url : List Char) : List Char :=
  if url.contains '@' && url.contains ':' && !isInfixL ("://".data) url then
    match sshNameMatch url with
    | some n => n
    | none => extractStd url
  else extractStd url

/-- `GitUrlValidator.extractRepositoryName`. -/
def extractRepositoryName (url : String) : String :=
  ⟨extractRepositoryNameL url.data⟩

/-- `GitUrlValidator.isKnownProvider`: one of the three regexes
`^https?:\/\/github\.com\/[\w\-\.]+\/[\w\-\.]+$` (and `gitlab.com`,
`bitbucket.org`). -/
def isKnownProvider (u : List Char) : Bool :=
  match dropScheme u with
  | some r =>
    match splitSlash r with
    | [h, a, b] =>
      (h = "github.com".data || h = "gitlab.com".data || h = "bitbucket.org".data)
        && isSeg a && isSeg b
    | _ => false
  | none => false

/-- `GitUrlValidator.looksLikeRepositoryUrl`: the five regexes
`^https?:\/\/[\w\-\.]+\/[\w\-\.]+\/[\w\-\.]+$`, `.../git/[\w\-\.]+$`,
`.../repos?/[\w\-\.]+$`, `.../scm/[\w\-\.]+$`, `.../projects/[\w\-\.]+$`. -/
def looksLikeRepositoryUrl (u : List Char) : Bool :=
  match dropScheme u with
  | some r =>
    match splitSlash r with
    | [h, a, b] =>
      (isSeg h && isSeg a && isSeg b)
        || (isSeg h && a = "git".data && isSeg b)
        || (isSeg h && (a = "repo".data || a = "repos".data) && isSeg b)
        || (isSeg h && a = "scm".data && isSeg b)
        || (isSeg h && a = "projects".data && isSeg b)
    | _ => false
  | none => false

/-- `GitUrlValidator.normalize` on the character list.  `replace(/\/$/, '')`
removes one trailing slash. -/
def normalizeL (url : List Char) : List Char :=
  let trimmedUrl := trimChars url
  if startsWithL ("git@".data) trimmedUrl || startsWithL ("ssh://".data) trimmedUrl
      || startsWithL ("git://".data) trimmedUrl then
    trimmedUrl
  else if startsWithL ("http://".data) trimmedUrl
      || startsWithL ("https://".data) trimmedUrl then
    let cleanUrl := if endsWithL ("/".data) trimmedUrl then trimmedUrl.dropLast else trimmedUrl
    if endsWithL (".git".data) cleanUrl then cleanUrl
    else if isKnownProvider cleanUrl then cleanUrl ++ ".git".data
    else if looksLikeRepositoryUrl cleanUrl then cleanUrl ++ ".git".data
    else cleanUrl
  else trimmedUrl

/-- `GitUrlValidator.normalize`. -/
def normalize (url : String) : String := ⟨normalizeL url.data⟩

end GitUrlValidator

namespace GitProviderPatterns

/-- `^https?:\/\/github\.com\/[\w\-\.]+\/[\w\-\.]+(?:\.git)?\/?$` with `host`
the literal host (also used for gitlab.com, bitbucket.org).  The optional
`.git` is subsumed by the preceding `[\w\-\.]+`, whose class contains `.`. -/
def hostedPattern (host : List Char) (u : List Char) : Bool :=
  match dropScheme u with
  | some r =>
    match splitSlash (stripSlashOpt r) with
    | [h, a, b] => h = host && isSeg a && isSeg b
    | _ => false
  | none => false

/-- `^https?:\/\/git\.[\w\-\.]+\/[\w\-\.\/]+(?:\.git)?\/?$` and the analogous
`gitlab.`/`gitea.`/`gitiles.`/`cgit.` patterns: a host starting with the given
subdomain dot, then any nonempty `[\w\-\.\/]+` path (the optional `.git` and
`\/?` are subsumed by the class, which contains `.` and `/`). -/
def subdomainPattern (sub : List Char) (u : List Char) : Bool :=
  match dropScheme u with
  | some r =>
    match breakOn '/' r with
    | some (h, p) => startsWithL sub h && isSeg (h.drop sub.length) && isPath p
    | none => false
  | none => false

/-- `^https?:\/\/[\w\-\.]+\/[\w\-\.\/]+\.git\/?$`: any host, a path with a
mandatory `.git` suffix after at least one path character, one optional
trailing slash. -/
def genericDotGitPattern (u : List Char) : Bool :=
  match dropScheme u with
  | some r =>
    match breakOn '/' r with
    | some (h, p) =>
      let q := stripSlashOpt p
      isSeg h && endsWithL (".git".data) q && decide (5 ≤ q.length) && q.all isPathChar
    | none => false
  | none => false

/-- `^https?:\/\/[\w\-\.]+\/git\/[\w\-\.\/]+(?:\.git)?\/?$` and the `repos?`,
`scm`, `projects` variants: any host, a literal first path segment from
`words`, then any nonempty `[\w\-\.\/]+` path. -/
def pathWordPattern (words : List (List Char)) (u : List Char) : Bool :=
  match dropScheme u with
  | some r =>
    match breakOn '/' r with
    | some (h, p) =>
      match breakOn '/' p with
      | some (w, q) => isSeg h && words.contains w && isPath q
      | none => false
    | none => false
  | none => false

/-- `^git@github\.com:[\w\-\.]+\/[\w\-\.]+\.git$` and the gitlab/bitbucket
variants: the literal `git@host:`, then `owner/repo.git` with slash-free
parts. -/
def sshHostedPattern (hostColon : List Char) (u : List Char) : Bool :=
  if startsWithL hostColon u then
    match breakOn '/' (u.drop hostColon.length) with
    | some (a, b) =>
      isSeg a && endsWithL (".git".data) b && decide (5 ≤ b.length) && b.all isSegChar
    | none => false
  else false

/-- `^git@[\w\-\.]+:[\w\-\.\/]+\.git$`. -/
def sshSelfHostedPattern (u : List Char) : Bool :=
  if startsWithL ("git@".data) u then
    match breakOn ':' (u.drop 4) with
    | some (h, p) =>
      isSeg h && endsWithL (".git".data) p && decide (5 ≤ p.length) && p.all isPathChar
    | none => false
  else false

/-- `^[\w\-\.]+@[\w\-\.]+:[\w\-\.\/]+\.git$`. -/
def userAtHostPattern (u : List Char) : Bool :=
  match breakOn '@' u with
  | some (user, r) =>
    match breakOn ':' r with
    | some (h, p) =>
      isSeg user && isSeg h && endsWithL (".git".data) p && decide (5 ≤ p.length)
        && p.all isPathChar
    | none => false
  | none => false

/-- `^ssh:\/\/git@[\w\-\.]+\/[\w\-\.\/]+(?:\.git)?\/?$`. -/
def sshProtocolGitPattern (u : List Char) : Bool :=
  if startsWithL ("ssh://git@".data) u then
    match breakOn '/' (u.drop 10) with
    | some (h, p) => isSeg h && isPath p
    | none => false
  else false

/-- `^ssh:\/\/[\w\-\.]+@[\w\-\.]+\/[\w\-\.\/]+(?:\.git)?\/?$`. -/
def sshProtocolUserPattern (u : List Char) : Bool :=
  if startsWithL ("ssh://".data) u then
    match breakOn '@' (u.drop 6) with
    | some (user, r) =>
      match breakOn '/' r with
      | some (h, p) => isSeg user && isSeg h && isPath p
      | none => false
    | none => false
  else false

/-- `^git:\/\/[\w\-\.]+\/[\w\-\.\/]+(?:\.git)?\/?$`. -/
def gitProtocolPattern (u : List Char) : Bool :=
  if startsWithL ("git://".data) u then
    match breakOn '/' (u.drop 6) with
    | some (h, p) => isSeg h && isPath p
    | none => false
  else false

/-- `GitProviderPatterns.PATTERNS.some(pattern => pattern.test(u))`: the
21 patterns of the source, in order. -/
def anyPatternMatches (u : List Char) : Bool :=
  hostedPattern ("github.com".data) u
  || hostedPattern ("gitlab.com".data) u
  || hostedPattern ("bitbucket.org".data) u
  || subdomainPattern ("git.".data) u
  || subdomainPattern ("gitlab.".data) u
  || subdomainPattern ("gitea.".data) u
  || subdomainPattern ("gitiles.".data) u
  || subdomainPattern ("cgit.".data) u
  || genericDotGitPattern u
  || pathWordPattern [("git".data)] u
  || pathWordPattern [("repo".data), ("repos".data)] u
  || pathWordPattern [("scm".data)] u
  || pathWordPattern [("projects".data)] u
  || sshHostedPattern ("git@github.com:".data) u
  || sshHostedPattern ("git@gitlab.com:".data) u
  || sshHostedPattern ("git@bitbucket.org:".data) u
  || sshSelfHostedPattern u
  || userAtHostPattern u
  || sshProtocolGitPattern u
  || sshProtocolUserPattern u
  || gitProtocolPattern u

end GitProviderPatterns

namespace GitUrlValidator

/-- `GitUrlValidator.isValid`: false for empty or whitespace-only input,
otherwise tests the trimmed input against every provider pattern. -/
def isValid (url : String) : Bool :=
  let t := trimChars url.data
  if t.isEmpty then false else GitProviderPatterns.anyPatternMatches t

end GitUrlValidator

/-- The `GitRepository` value of the source.  The spec's `RepositoryReference`
names the `url` field `rawUrl`. -/
structure GitRepository where
  url : String
  name : String
  normalizedUrl : String
deriving DecidableEq

namespace GitUrlValidator

/-- `GitUrlValidator.createRepository`: the `url` field stores the input
exactly as given. -/
def createRepository (url : String) : GitRepository :=
  { url := url
    name := extractRepositoryName url
    normalizedUrl := normalize url }

end GitUrlValidator

/-- Models `path.join(base, name)` for an absolute base path without a
trailing separator (the only shape the resolver feeds it). -/
def pjoin (base name : String) : String := base ++ "/" ++ name

namespace ProjectFilePatterns

/-- `ProjectFilePatterns.COMMON_FILES`. -/
def COMMON_FILES : List String :=
  ["package.json", "package-lock.json", "pnpm-lock.yaml", "yarn.lock",
   "composer.json", "Gemfile", "requirements.txt", "Pipfile",
   "Cargo.toml", "go.mod", "pom.xml", "build.gradle",
   "Makefile", "CMakeLists.txt", "tsconfig.json", "jsconfig.json",
   ".gitignore", "README.md", "README.rst", "README.txt",
   "LICENSE", "LICENSE.txt", "LICENSE.md",
   ".env", ".env.example", "docker-compose.yml", "Dockerfile", ".git"]

/-- `ProjectFilePatterns.COMMON_DIRECTORIES`. -/
def COMMON_DIRECTORIES : List String :=
  ["src", "lib", "dist", "build", "out", "target", "bin",
   "node_modules", ".git", ".vscode", "test", "tests", "spec",
   "docs", "public", "assets", "static"]

end ProjectFilePatterns

/-- The `ProjectFileDetectionResult` of the source (the spec's
`ProjectDetectionResult` with `hasMarkers`/`markers`). -/
structure ProjectFileDetectionResult where
  hasCommonFiles : Bool
  detectedFiles : List String
deriving DecidableEq

namespace ProjectFileDetector

/-- `ProjectFileDetector.detect`.  The filesystem is passed in explicitly:
`readdir` models `fs.readdirSync` (`.error` = the call threw), `statIsDir`
models `fs.statSync(..).isDirectory()` (`.error` = `statSync` threw).  A
thrown `readdirSync` is caught and yields the conservative
`hasCommonFiles = true` with no entries; a thrown `statSync` is caught and the
directory candidate skipped.  File-name markers are collected purely by name
membership in the listing — no stat is performed for them. -/
def detect (readdir : String → Except String (List String))
    (statIsDir : String → Except String Bool) (workspacePath : String) :
    ProjectFileDetectionResult :=
  match readdir workspacePath with
  | .error _ => { hasCommonFiles := true, detectedFiles := [] }
  | .ok items =>
    let fileMarkers := ProjectFilePatterns.COMMON_FILES.filter fun file => items.contains file
    let dirMarkers :=
      (ProjectFilePatterns.COMMON_DIRECTORIES.filter fun d => items.contains d).filterMap
        fun d =>
          match statIsDir (pjoin workspacePath d) with
          | .ok true => some (d ++ "/")
          | .ok false => none
          | .error _ => none
    let detectedFiles := fileMarkers ++ dirMarkers
    { hasCommonFiles := decide (0 < detectedFiles.length), detectedFiles := detectedFiles }

end ProjectFileDetector

/-- The `CloneLocation` of the source.  The spec's `ClonePlacement` mode is
represented in the source by the `cloneToRoot` flag together with which
resolver branch ran: `MergeIntoRoot` = `cloneToRoot := true`; `NewSubfolder`
and `NewInHome` both have `cloneToRoot := false` and are told apart by the
message. -/
structure CloneLocation where
  targetPath : String
  cloneToRoot : Bool
  message : String
deriving DecidableEq

namespace CloneLocationResolver

/-- `CloneLocationResolver.resolveForNoWorkspace` (home directory passed in
for `os.homedir()`). -/
def resolveForNoWorkspace (homedir : String) (repository : GitRepository) : CloneLocation :=
  { targetPath := pjoin homedir repository.name
    cloneToRoot := false
    message := "Clone " ++ repository.name ++ " to new folder in home directory?" }

/-- The `while (fs.existsSync(targetPath))` loop of
`resolveForExistingProject`: `pathExists` models `fs.existsSync`.  The source
loop is unbounded; `fuel` bounds the recursion and is irrelevant whenever some
tried candidate does not exist within it. -/
def conflictLoop (pathExists : String → Bool) (workspacePath name : String) :
    Nat → String → Nat → String
  | 0, targetPath, _ => targetPath
  | fuel + 1, targetPath, counter =>
    if pathExists targetPath then
      conflictLoop pathExists workspacePath name fuel
        (pjoin workspacePath (name ++ "-" ++ toString counter)) (counter + 1)
    else targetPath

/-- `CloneLocationResolver.resolveForExistingProject`. -/
def resolveForExistingProject (pathExists : String → Bool) (fuel : Nat)
    (repository : GitRepository) (workspacePath : String) : CloneLocation :=
  { targetPath :=
      conflictLoop pathExists workspacePath repository.name fuel
        (pjoin workspacePath repository.name) 1
    cloneToRoot := false
    message := "Cloning " ++ repository.name ++ " to new folder (avoiding conflicts)" }

/-- `CloneLocationResolver.resolveForCleanWorkspace`. -/
def resolveForCleanWorkspace (repository : GitRepository) (workspacePath : String) :
    CloneLocation :=
  { targetPath := workspacePath
    cloneToRoot := true
    message := "Clone " ++ repository.name
      ++ " contents to current workspace root? (No project files detected)" }

/-- `CloneLocationResolver.resolve`: no workspace folder → home placement;
otherwise inspect the first workspace folder and pick the existing-project or
clean-workspace branch. -/
def resolve (pathExists : String → Bool)
    (readdir : String → Except String (List String))
    (statIsDir : String → Except String Bool) (homedir : String) (fuel : Nat)
    (repository : GitRepository) (workspaceFolders : List String) : CloneLocation :=
  match workspaceFolders with
  | [] => resolveForNoWorkspace homedir repository
  | workspacePath :: _ =>
    if (ProjectFileDetector.detect readdir statIsDir workspacePath).hasCommonFiles then
      resolveForExistingProject pathExists fuel repository workspacePath
    else resolveForCleanWorkspace repository workspacePath

/-- The candidate paths the conflict loop tries, in order: `{root}/{name}`,
then `{root}/{name}-1`, `{root}/{name}-2`, …. -/
def candidate (workspacePath name : String) : Nat → String
  | 0 => pjoin workspacePath name
  | k + 1 => pjoin workspacePath (name ++ "-" ++ toString (k + 1))

end CloneLocationResolver

/-- The `CloneResult` of the source (the spec's `CloneOutcome` with
`succeeded`/`message`/`targetPath`). -/
structure CloneResult where
  success : Bool
  message : String
  targetPath : Option String
deriving DecidableEq

/-- How the spawned `git clone` subprocess ended: `exited code stderrOutput`
(the `close` event, with the drained standard-error text), or `spawnError`
(the `error` event: the process could not be started). -/
inductive GitProcessOutcome where
  | exited (code : Int) (stderrOutput : String)
  | spawnError (errorMessage : String)
deriving DecidableEq

namespace GitCloneService

/-- `GitCloneService.createSuccessResult`. -/
def createSuccessResult (repository : GitRepository) (location : CloneLocation)
    (targetPath : String) : CloneResult :=
  { success := true
    message :=
      if location.cloneToRoot then
        "Successfully cloned " ++ repository.name ++ " to workspace root (no conflicts detected)"
      else "Successfully cloned " ++ repository.name ++ " to new folder"
    targetPath := some targetPath }

/-- `GitCloneService.clone`: the subprocess behaviour is passed in as
`proc`.  The promise always resolves (never rejects): exit code 0 yields the
success result; a non-zero exit yields a failure whose message appends the
captured stderr, or the literal `"Unknown error"` when stderr is empty
(JavaScript `errorOutput || 'Unknown error'`); a spawn error yields a failure
with its own distinct message.  The `git` argument list built by
`prepareGitCommand` does not influence the resolved value and is not modelled
here. -/
def clone (repository : GitRepository) (location : CloneLocation) (targetPath : String)
    (proc : GitProcessOutcome) : CloneResult :=
  match proc with
  | .exited code stderrOutput =>
    if code = 0 then createSuccessResult repository location targetPath
    else
      { success := false
        message := "Failed to clone repository: "
          ++ (if stderrOutput = "" then "Unknown error" else stderrOutput)
        targetPath := none }
  | .spawnError errorMessage =>
    { success := false
      message := "Failed to start git process: " ++ errorMessage
      targetPath := none }

end GitCloneService

/-- One clipboard sample: `vscode.env.clipboard.readText()` returned text, or
threw. -/
inductive ClipboardRead where
  | ok (text : String)
  | readError
deriving DecidableEq

/-- The notification a single watcher tick emits: exactly one of the two
callbacks `onRepositoryDetected` / `onNoRepository`. -/
inductive WatcherEvent where
  | detected (repo : GitRepository)
  | noRepo
deriving DecidableEq

namespace ClipboardMonitor

/-- `ClipboardMonitor.checkClipboard`, per tick: non-empty text recognized by
the validator fires `onRepositoryDetected` with a freshly built repository;
empty text, unrecognized text and a clipboard read failure all fire
`onNoRepository`.  No state is consulted — the decision is a function of the
current sample alone. -/
def checkClipboard : ClipboardRead → WatcherEvent
  | .ok text =>
    if text ≠ "" && GitUrlValidator.isValid text then
      .detected (GitUrlValidator.createRepository text)
    else .noRepo
  | .readError => .noRepo

end ClipboardMonitor

namespace GitCloneExtension

/-- One tick of the extension: run `checkClipboard` and update
`currentRepository` (`onRepositoryDetected` stores the repository,
`onNoRepository` clears it); the emitted event is returned alongside. -/
def extensionStep (_current : Option GitRepository) (r : ClipboardRead) :
    Option GitRepository × WatcherEvent :=
  match ClipboardMonitor.checkClipboard r with
  | .detected repo => (some repo, .detected repo)
  | .noRepo => (none, .noRepo)

/-- Run a sequence of ticks from a given `currentRepository` state, returning
the final state and the emitted events, one per tick, in order. -/
def runTicks (current : Option GitRepository) :
    List ClipboardRead → Option GitRepository × List WatcherEvent
  | [] => (current, [])
  | r :: rs =>
    let step := extensionStep current r
    let rest := runTicks step.1 rs
    (rest.1, step.2 :: rest.2)

end GitCloneExtension

/-! ## Helper lemmas on the character-level functions -/

theorem segChar_not_ws {c : Char} (h : isSegChar c = true) : c.isWhitespace = false := by
  unfold isSegChar at h
  simp only [Bool.or_eq_true, decide_eq_true_eq] at h
  rcases h with ((h | h) | h) | h
  · simp only [Char.isAlphanum, Char.isAlpha, Char.isUpper, Char.isLower, Char.isDigit,
      Bool.or_eq_true, Bool.and_eq_true, decide_eq_true_eq] at h
    simp only [Char.isWhitespace, Bool.or_eq_true, decide_eq_true_eq, Bool.or_eq_false_iff,
      decide_eq_false_iff_not]
    rcases h with (⟨h1, h2⟩ | ⟨h1, h2⟩) | ⟨h1, h2⟩ <;> refine ⟨⟨⟨?_, ?_⟩, ?_⟩, ?_⟩ <;>
      rintro rfl <;> revert h1 h2 <;> decide
  all_goals subst h; decide

theorem segChar_ne_slash {c : Char} (h : isSegChar c = true) : c ≠ '/' := by
  rintro rfl
  simp [isSegChar, Char.isAlphanum, Char.isAlpha, Char.isUpper, Char.isLower,
    Char.isDigit] at h

theorem startsWithL_iff : ∀ (p l : List Char), startsWithL p l = true ↔ ∃ t, l = p ++ t
  | [], l => by simp [startsWithL]
  | a :: as, [] => by
    constructor
    · intro h; exact Bool.noConfusion h
    · rintro ⟨t, ht⟩
      rw [List.cons_append] at ht
      exact List.noConfusion ht
  | a :: as, c :: cs => by
    rw [startsWithL]
    by_cases hac : a = c
    · subst hac
      rw [if_pos rfl, startsWithL_iff as cs]
      constructor
      · rintro ⟨t, rfl⟩; exact ⟨t, rfl⟩
      · rintro ⟨t, ht⟩
        rw [List.cons_append] at ht
        injection ht with h1 h2
        exact ⟨t, h2⟩
    · rw [if_neg hac]
      constructor
      · intro h; exact Bool.noConfusion h
      · rintro ⟨t, ht⟩
        rw [List.cons_append] at ht
        injection ht with h1 h2
        exact absurd h1.symm hac

theorem startsWithL_append_self (p x : List Char) : startsWithL p (p ++ x) = true :=
  (startsWithL_iff p (p ++ x)).mpr ⟨x, rfl⟩

theorem startsWithL_mono {p l : List Char} (s : List Char) (h : startsWithL p l = true) :
    startsWithL p (l ++ s) = true := by
  obtain ⟨t, rfl⟩ := (startsWithL_iff p l).mp h
  rw [List.append_assoc]
  exact startsWithL_append_self p (t ++ s)

theorem endsWithL_append_self (s l : List Char) : endsWithL s (l ++ s) = true := by
  unfold endsWithL
  rw [List.reverse_append]
  exact startsWithL_append_self s.reverse l.reverse

theorem trimChars_as_rdrop (l : List Char) :
    trimChars l = List.rdropWhile Char.isWhitespace (l.dropWhile Char.isWhitespace) := rfl

theorem trimChars_eq_self {l : List Char}
    (h1 : l.dropWhile Char.isWhitespace = l)
    (h2 : List.rdropWhile Char.isWhitespace l = l) : trimChars l = l := by
  rw [trimChars_as_rdrop, h1, h2]

theorem trimChars_idem (l : List Char) : trimChars (trimChars l) = trimChars l := by
  rw [trimChars_as_rdrop, trimChars_as_rdrop]
  set A := l.dropWhile Char.isWhitespace with hA
  have hdropA : List.dropWhile Char.isWhitespace A = A := List.dropWhile_idempotent _ _
  set t := List.rdropWhile Char.isWhitespace A with ht
  have hrd : List.rdropWhile Char.isWhitespace t = t := List.rdropWhile_idempotent _ _
  have hd : List.dropWhile Char.isWhitespace t = t := by
    cases htn : t with
    | nil => simp
    | cons c cs =>
      rcases List.rdropWhile_prefix Char.isWhitespace A with ⟨s, hs⟩
      rw [← ht] at hs
      have hac : A = c :: (cs ++ s) := by rw [← hs, htn]; simp
      have hcw : Char.isWhitespace c = false := by
        have h0 := List.dropWhile_eq_self_iff.mp (hac ▸ hdropA)
        have h1 := h0 (by simp)
        simpa using h1
      rw [List.dropWhile_cons, hcw]
      simp
  rw [hd, hrd]

theorem breakOn_none {ch : Char} {l : List Char} (h : breakOn ch l = none) :
    ∀ c ∈ l, c ≠ ch := by
  induction l with
  | nil => intro c hc; cases hc
  | cons a as ih =>
    intro c hc
    rw [breakOn] at h
    by_cases hach : a = ch
    · rw [if_pos hach] at h; cases h
    · rw [if_neg hach] at h
      rcases List.mem_cons.mp hc with rfl | hc
      · exact hach
      · cases hb : breakOn ch as with
        | none => exact ih hb c hc
        | some xy => rw [hb] at h; cases h

theorem breakOn_some {ch : Char} {l x y : List Char} (h : breakOn ch l = some (x, y)) :
    l = x ++ ch :: y ∧ ∀ c ∈ x, c ≠ ch := by
  induction l generalizing x y with
  | nil => cases h
  | cons a as ih =>
    rw [breakOn] at h
    by_cases hach : a = ch
    · rw [if_pos hach] at h
      injection h with h
      injection h with h1 h2
      subst hach h1 h2
      exact ⟨rfl, by intro c hc; cases hc⟩
    · rw [if_neg hach] at h
      cases hb : breakOn ch as with
      | none => rw [hb] at h; cases h
      | some xy =>
        obtain ⟨x', y'⟩ := xy
        rw [hb] at h
        injection h with h
        injection h with h1 h2
        obtain ⟨hx, hall⟩ := ih hb
        subst h2
        rw [← h1, hx]
        refine ⟨rfl, ?_⟩
        intro c hc
        rcases List.mem_cons.mp hc with rfl | hc
        · exact hach
        · exact hall c hc

theorem splitSlash_ne_nil (l : List Char) : splitSlash l ≠ [] := by
  cases l with
  | nil => simp [splitSlash]
  | cons c rest =>
    rw [splitSlash]
    by_cases hc : c = '/'
    · rw [if_pos hc]; simp
    · rw [if_neg hc]
      cases hs : splitSlash rest with
      | nil => simp
      | cons g gs => simp

theorem splitSlash_no_slash {a : List Char} (h : ∀ c ∈ a, c ≠ '/') :
    splitSlash a = [a] := by
  induction a with
  | nil => rfl
  | cons c rest ih =>
    rw [splitSlash, if_neg (h c (List.mem_cons_self c rest))]
    rw [ih fun c hc => h c (List.mem_cons_of_mem _ hc)]

theorem splitSlash_append {a : List Char} (rest : List Char) (h : ∀ c ∈ a, c ≠ '/') :
    splitSlash (a ++ '/' :: rest) = a :: splitSlash rest := by
  induction a with
  | nil => simp [splitSlash]
  | cons c cs ih =>
    rw [List.cons_append, splitSlash, if_neg (h c (List.mem_cons_self c cs))]
    rw [ih fun c hc => h c (List.mem_cons_of_mem _ hc)]

theorem splitSlash_head {l x : List Char} {xs : List (List Char)}
    (h : splitSlash l = x :: xs) : x = l.takeWhile (fun c => !(c = '/')) := by
  induction l generalizing x xs with
  | nil =>
    rw [splitSlash] at h
    injection h with h1 h2
    simp [← h1]
  | cons c rest ih =>
    rw [splitSlash] at h
    by_cases hc : c = '/'
    · rw [if_pos hc] at h
      injection h with h1 h2
      subst hc
      simp [← h1, List.takeWhile]
    · rw [if_neg hc] at h
      cases hs : splitSlash rest with
      | nil => exact absurd hs (splitSlash_ne_nil rest)
      | cons g gs =>
        rw [hs] at h
        injection h with h1 h2
        rw [← h1, List.takeWhile_cons]
        simp [hc, ih hs]

theorem startsWithL_cons_ne {a b : Char} (as bs : List Char) (h : a ≠ b) :
    startsWithL (a :: as) (b :: bs) = false := by
  rw [startsWithL, if_neg h]

theorem isSeg_spec {x : List Char} (h : isSeg x = true) :
    x ≠ [] ∧ ∀ c ∈ x, isSegChar c = true := by
  unfold isSeg at h
  rw [Bool.and_eq_true, List.all_eq_true] at h
  refine ⟨?_, h.2⟩
  intro hx
  subst hx
  simp at h

theorem isSeg_no_slash {x : List Char} (h : isSeg x = true) : ∀ c ∈ x, c ≠ '/' :=
  fun c hc => segChar_ne_slash ((isSeg_spec h).2 c hc)

/-- `normalize` only looks at the trimmed input. -/
theorem normalizeL_trimChars (l : List Char) :
    GitUrlValidator.normalizeL (trimChars l) = GitUrlValidator.normalizeL l := by
  unfold GitUrlValidator.normalizeL
  rw [trimChars_idem]

/-- A URL of the form `t ++ ".git"` with `t` an HTTP(S) URL is a fixed point
of `normalize`. -/
theorem normalizeL_append_git {t : List Char}
    (h : startsWithL ("http://".data) t = true ∨ startsWithL ("https://".data) t = true) :
    GitUrlValidator.normalizeL (t ++ ".git".data) = t ++ ".git".data := by
  have hht : ∃ t', t = 'h' :: t' := by
    rcases h with h | h
    · obtain ⟨s, rfl⟩ := (startsWithL_iff _ _).mp h
      exact ⟨"ttp://".data ++ s, rfl⟩
    · obtain ⟨s, rfl⟩ := (startsWithL_iff _ _).mp h
      exact ⟨"ttps://".data ++ s, rfl⟩
  obtain ⟨t', hht⟩ := hht
  have hr : t ++ ".git".data = 'h' :: (t' ++ ".git".data) := by rw [hht]; rfl
  have hdrop : (t ++ ".git".data).dropWhile Char.isWhitespace = t ++ ".git".data := by
    rw [hr, List.dropWhile_cons, if_neg (by decide)]
  have hrdrop : List.rdropWhile Char.isWhitespace (t ++ ".git".data) = t ++ ".git".data := by
    have hshape : t ++ ".git".data = (t ++ ['.', 'g', 'i']) ++ ['t'] := by
      rw [show (".git".data) = ['.', 'g', 'i'] ++ ['t'] from rfl, List.append_assoc]
    rw [hshape]
    exact List.rdropWhile_concat_neg _ _ 't' (by decide)
  have htrim : trimChars (t ++ ".git".data) = t ++ ".git".data :=
    trimChars_eq_self hdrop hrdrop
  have h1 : startsWithL ("git@".data) (t ++ ".git".data) = false := by
    rw [hr]; exact startsWithL_cons_ne _ _ (by decide)
  have h2 : startsWithL ("ssh://".data) (t ++ ".git".data) = false := by
    rw [hr]; exact startsWithL_cons_ne _ _ (by decide)
  have h3 : startsWithL ("git://".data) (t ++ ".git".data) = false := by
    rw [hr]; exact startsWithL_cons_ne _ _ (by decide)
  have hc2 : (startsWithL ("http://".data) (t ++ ".git".data)
      || startsWithL ("https://".data) (t ++ ".git".data)) = true := by
    rcases h with h | h
    · rw [startsWithL_mono _ h]; rfl
    · rw [startsWithL_mono _ h]
      simp
  have hslash : endsWithL ("/".data) (t ++ ".git".data) = false := by
    unfold endsWithL
    rw [List.reverse_append, show ((".git".data).reverse) = 't' :: ['i', 'g', '.'] from rfl,
      List.cons_append]
    exact startsWithL_cons_ne _ _ (by decide)
  have hgitend : endsWithL (".git".data) (t ++ ".git".data) = true :=
    endsWithL_append_self _ _
  unfold GitUrlValidator.normalizeL
  rw [htrim]
  simp only [h1, h2, h3, hc2, hslash, hgitend, Bool.or_self, Bool.or_false,
    Bool.false_eq_true, if_false, if_true]

/-- `normalize` appends `.git` to `https://github.com/{owner}/{repo}` when
`owner` and `repo` are nonempty runs of word/dot/hyphen characters and the URL
does not already end in `.git`. -/
theorem normalizeL_github {owner repo : List Char}
    (ho : isSeg owner = true) (hrp : isSeg repo = true)
    (hgit : endsWithL (".git".data) ("https://github.com/".data ++ owner ++ '/' :: repo)
      = false) :
    GitUrlValidator.normalizeL ("https://github.com/".data ++ owner ++ '/' :: repo)
      = ("https://github.com/".data ++ owner ++ '/' :: repo) ++ ".git".data := by
  obtain ⟨hoNe, -⟩ := isSeg_spec ho
  obtain ⟨hrpNe, -⟩ := isSeg_spec hrp
  set L := "https://github.com/".data ++ owner ++ '/' :: repo with hL
  have hcons : L = 'h' :: ("ttps://github.com/".data ++ owner ++ '/' :: repo) := rfl
  have hcons5 : L = 'h' :: 't' :: 't' :: 'p' :: 's'
      :: ("://github.com/".data ++ owner ++ '/' :: repo) := rfl
  have hsh : L = "https://".data ++ ("github.com/".data ++ owner ++ '/' :: repo) := rfl
  have hBrepo : L = ("https://github.com/".data ++ owner ++ ['/']) ++ repo := by
    rw [hL]
    simp [List.append_assoc]
  have hdrop : L.dropWhile Char.isWhitespace = L := by
    rw [hcons, List.dropWhile_cons, if_neg (by decide)]
  have hex : ∃ R c, repo = R ++ [c] ∧ isSegChar c = true := by
    cases hrev : repo.reverse with
    | nil => exact absurd (List.reverse_eq_nil_iff.mp hrev) hrpNe
    | cons c cs =>
      refine ⟨cs.reverse, c, ?_, ?_⟩
      · have h := congrArg List.reverse hrev
        rw [List.reverse_reverse] at h
        rw [h]; simp
      · exact (isSeg_spec hrp).2 c (List.mem_reverse.mp (hrev ▸ List.mem_cons_self c cs))
  obtain ⟨R, c, hrc, hcseg⟩ := hex
  have hrdrop : List.rdropWhile Char.isWhitespace L = L := by
    rw [hBrepo, hrc, ← List.append_assoc]
    exact List.rdropWhile_concat_neg _ _ c (by simp [segChar_not_ws hcseg])
  have htrim : trimChars L = L := trimChars_eq_self hdrop hrdrop
  have h1 : startsWithL ("git@".data) L = false := by
    rw [hcons]; exact startsWithL_cons_ne _ _ (by decide)
  have h2 : startsWithL ("ssh://".data) L = false := by
    rw [hcons]; exact startsWithL_cons_ne _ _ (by decide)
  have h3 : startsWithL ("git://".data) L = false := by
    rw [hcons]; exact startsWithL_cons_ne _ _ (by decide)
  have hhttpF : startsWithL ("http://".data) L = false := by
    rw [hcons5, show ("http://".data) = ['h', 't', 't', 'p', ':', '/', '/'] from rfl]
    simp [startsWithL]
  have hhttpsT : startsWithL ("https://".data) L = true := by
    rw [hsh]; exact startsWithL_append_self _ _
  have hc2 : (startsWithL ("http://".data) L || startsWithL ("https://".data) L) = true := by
    rw [hhttpsT]; simp
  have hslash : endsWithL ("/".data) L = false := by
    unfold endsWithL
    rw [hBrepo, hrc, ← List.append_assoc, List.reverse_append,
      show (("/".data).reverse) = ['/'] from rfl,
      show ([c].reverse) = [c] from by simp, List.cons_append]
    exact startsWithL_cons_ne _ _ fun he => segChar_ne_slash hcseg he.symm
  have hds : dropScheme L = some ("github.com/".data ++ owner ++ '/' :: repo) := by
    unfold dropScheme
    rw [hhttpF]
    simp only [Bool.false_eq_true, if_false, hhttpsT, if_true]
    have hlen : ("https://".data).length = 8 := rfl
    rw [hsh, ← hlen]
    exact congrArg some (List.drop_left _ _)
  have hM : ("github.com/".data ++ owner ++ '/' :: repo)
      = "github.com".data ++ '/' :: (owner ++ '/' :: repo) := rfl
  have hsplit : splitSlash ("github.com/".data ++ owner ++ '/' :: repo)
      = ["github.com".data, owner, repo] := by
    rw [hM, splitSlash_append _ (by decide), splitSlash_append _ (isSeg_no_slash ho),
      splitSlash_no_slash (isSeg_no_slash hrp)]
  have hknown : GitUrlValidator.isKnownProvider L = true := by
    simp only [GitUrlValidator.isKnownProvider, hds, hsplit, ho, hrp, Bool.and_true]
    rfl
  unfold GitUrlValidator.normalizeL
  rw [htrim]
  simp only [h1, h2, h3, hc2, hslash, hgit, hknown, Bool.or_self, Bool.or_false,
    Bool.false_eq_true, if_false, if_true]

theorem stringExt {a b : String} (h : a.data = b.data) : a = b := by
  cases a
  cases b
  exact congrArg String.mk h

/-- Under a trimmed input with no trailing slash, `normalize` returns either
the trimmed input itself or (for HTTP(S) inputs) the trimmed input with
`.git` appended. -/
theorem normalizeL_branch (l : List Char)
    (h : endsWithL ("/".data) (trimChars l) = false) :
    GitUrlValidator.normalizeL l = trimChars l
      ∨ ((startsWithL ("http://".data) (trimChars l) = true
          ∨ startsWithL ("https://".data) (trimChars l) = true)
        ∧ GitUrlValidator.normalizeL l = trimChars l ++ ".git".data) := by
  unfold GitUrlValidator.normalizeL
  simp only [h, Bool.false_eq_true, if_false]
  by_cases c1 : (startsWithL ("git@".data) (trimChars l)
      || startsWithL ("ssh://".data) (trimChars l)
      || startsWithL ("git://".data) (trimChars l)) = true
  · rw [if_pos c1]; exact Or.inl rfl
  · rw [if_neg c1]
    by_cases c2 : (startsWithL ("http://".data) (trimChars l)
        || startsWithL ("https://".data) (trimChars l)) = true
    · rw [if_pos c2]
      by_cases d1 : endsWithL (".git".data) (trimChars l) = true
      · rw [if_pos d1]; exact Or.inl rfl
      · rw [if_neg d1]
        by_cases d2 : GitUrlValidator.isKnownProvider (trimChars l) = true
        · rw [if_pos d2]; exact Or.inr ⟨by simpa using c2, rfl⟩
        · rw [if_neg d2]
          by_cases d3 : GitUrlValidator.looksLikeRepositoryUrl (trimChars l) = true
          · rw [if_pos d3]; exact Or.inr ⟨by simpa using c2, rfl⟩
          · rw [if_neg d3]; exact Or.inl rfl
    · rw [if_neg c2]; exact Or.inl rfl

/-- `normalize` is idempotent on inputs whose trimmed form has no trailing
slash. -/
theorem normalizeL_idem {l : List Char}
    (h : endsWithL ("/".data) (trimChars l) = false) :
    GitUrlValidator.normalizeL (GitUrlValidator.normalizeL l)
      = GitUrlValidator.normalizeL l := by
  rcases normalizeL_branch l h with heq | ⟨hsch, heq⟩
  · rw [heq, normalizeL_trimChars, ← heq]
  · rw [heq, normalizeL_append_git hsch]

/-! ## C1 — normalization of provider URLs and idempotence -/

/-- C1, counterexample: `normalize` is not idempotent on every input string.
At `"http://a//"` the first pass strips one trailing slash yielding
`"http://a/"`, and a second pass strips another, so
`normalize (normalize x) ≠ normalize x`. -/
theorem c1_counterexample :
    GitUrlValidator.normalize (GitUrlValidator.normalize "http://a//")
      ≠ GitUrlValidator.normalize "http://a//" := by decide

/-- C1 (amended): for every owner and repo made of word characters, dots and
hyphens, `normalize` maps `https://github.com/{owner}/{repo}` (no `.git`
suffix) to `https://github.com/{owner}/{repo}.git`; and `normalize` is
idempotent on every input whose trimmed form does not end in a slash (on
arbitrary strings idempotence fails, see the counterexample).  Concretely,
`normalize "https://github.com/a/b" = "https://github.com/a/b.git"`. -/
theorem c1_github_normalize_idem :
    (∀ owner repo : String, isSeg owner.data = true → isSeg repo.data = true →
      endsWithL (".git".data) ("https://github.com/" ++ owner ++ "/" ++ repo).data = false →
      GitUrlValidator.normalize ("https://github.com/" ++ owner ++ "/" ++ repo)
        = "https://github.com/" ++ owner ++ "/" ++ repo ++ ".git")
    ∧ (∀ url : String, endsWithL ("/".data) (trimChars url.data) = false →
      GitUrlValidator.normalize (GitUrlValidator.normalize url)
        = GitUrlValidator.normalize url)
    ∧ GitUrlValidator.normalize "https://github.com/a/b" = "https://github.com/a/b.git" := by
  refine ⟨?_, ?_, by decide⟩
  · intro owner repo ho hrp hgit
    have hdata : ("https://github.com/" ++ owner ++ "/" ++ repo).data
        = "https://github.com/".data ++ owner.data ++ '/' :: repo.data := by
      simp [String.data_append, List.append_assoc]
    rw [hdata] at hgit
    have hres := normalizeL_github ho hrp hgit
    apply stringExt
    show GitUrlValidator.normalizeL ("https://github.com/" ++ owner ++ "/" ++ repo).data
        = ("https://github.com/" ++ owner ++ "/" ++ repo ++ ".git").data
    rw [hdata, hres]
    simp [String.data_append, List.append_assoc]
  · intro url h
    exact congrArg String.mk (normalizeL_idem h)

/-! ## C2 — normalization of self-hosted HTTP(S) URLs -/

/-- The spec sentence's reading of "a two-or-more-segment repository path":
after the scheme, a word/dot/hyphen host followed by two or more nonempty
word/dot/hyphen path segments (the `/git/`, `/repo(s)/`, `/scm/`,
`/projects/` shapes are instances since those words are such segments). -/
def specTwoOrMoreSegRepoPath (u : List Char) : Bool :=
  match dropScheme u with
  | some r =>
    match splitSlash r with
    | h :: segs => isSeg h && decide (2 ≤ segs.length) && segs.all isSeg
    | [] => false
  | none => false

/-- As `specTwoOrMoreSegRepoPath` but with exactly two path segments — what
the code's `looksLikeRepositoryUrl` actually accepts. -/
def specExactlyTwoSegRepoPath (u : List Char) : Bool :=
  match dropScheme u with
  | some r =>
    match splitSlash r with
    | h :: segs => isSeg h && decide (segs.length = 2) && segs.all isSeg
    | [] => false
  | none => false

/-- The host of an HTTP(S) URL: the characters between the scheme and the
first slash (or the end). -/
def hostOf (u : List Char) : Option (List Char) :=
  (dropScheme u).map fun r => r.takeWhile fun c => !(c = '/')

/-- The five regexes of `looksLikeRepositoryUrl` accept exactly the
two-segment word/dot/hyphen repository paths. -/
theorem looksLike_eq_exactlyTwo (u : List Char) :
    GitUrlValidator.looksLikeRepositoryUrl u = specExactlyTwoSegRepoPath u := by
  unfold GitUrlValidator.looksLikeRepositoryUrl specExactlyTwoSegRepoPath
  cases hds : dropScheme u with
  | none => rfl
  | some r =>
    rcases hsp : splitSlash r with _ | ⟨h, segs⟩
    · simp only [hsp]
    · rcases segs with _ | ⟨a, _ | ⟨b, _ | ⟨c, rest⟩⟩⟩
      · simp [hsp]
      · simp [hsp]
      · simp only [hsp]
        rw [Bool.eq_iff_iff]
        simp only [Bool.or_eq_true, Bool.and_eq_true, decide_eq_true_eq, List.all_cons,
          List.all_nil, Bool.and_true, List.length_cons, List.length_nil]
        constructor
        · rintro ((((⟨⟨hh, ha⟩, hb⟩ | ⟨⟨hh, ha⟩, hb⟩) | ⟨⟨hh, ha⟩, hb⟩)
            | ⟨⟨hh, ha⟩, hb⟩) | ⟨⟨hh, ha⟩, hb⟩)
          · exact ⟨⟨hh, trivial⟩, ha, hb⟩
          · subst ha; exact ⟨⟨hh, trivial⟩, by decide, hb⟩
          · rcases ha with ha | ha <;> subst ha
            · exact ⟨⟨hh, trivial⟩, by decide, hb⟩
            · exact ⟨⟨hh, trivial⟩, by decide, hb⟩
          · subst ha; exact ⟨⟨hh, trivial⟩, by decide, hb⟩
          · subst ha; exact ⟨⟨hh, trivial⟩, by decide, hb⟩
        · rintro ⟨⟨hh, -⟩, ha, hb⟩
          exact Or.inl (Or.inl (Or.inl (Or.inl ⟨⟨hh, ha⟩, hb⟩)))
      · have hne : decide ((a :: b :: c :: rest).length = 2) = false :=
          decide_eq_false (by simp)
        simp [hsp, hne]

/-- A URL whose host is none of the three named providers never passes
`isKnownProvider`. -/
theorem isKnownProvider_eq_false_of_host {u : List Char}
    (h1 : hostOf u ≠ some ("github.com".data))
    (h2 : hostOf u ≠ some ("gitlab.com".data))
    (h3 : hostOf u ≠ some ("bitbucket.org".data)) :
    GitUrlValidator.isKnownProvider u = false := by
  unfold GitUrlValidator.isKnownProvider
  cases hds : dropScheme u with
  | none => rfl
  | some r =>
    rcases hsp : splitSlash r with _ | ⟨h, segs⟩
    · simp only [hsp]
    · have hh : h = r.takeWhile (fun c => !(c = '/')) := splitSlash_head hsp
      have hhost : hostOf u = some h := by
        rw [hostOf, hds, Option.map_some', ← hh]
      rcases segs with _ | ⟨a, _ | ⟨b, _ | ⟨c, rest⟩⟩⟩
      · simp only [hsp]
      · simp only [hsp]
      · have hg : decide (h = "github.com".data) = false :=
          decide_eq_false fun he => h1 (by rw [hhost, he])
        have hgl : decide (h = "gitlab.com".data) = false :=
          decide_eq_false fun he => h2 (by rw [hhost, he])
        have hbb : decide (h = "bitbucket.org".data) = false :=
          decide_eq_false fun he => h3 (by rw [hhost, he])
        simp only [hsp, hg, hgl, hbb, Bool.or_self, Bool.or_false, Bool.false_and]
      · simp only [hsp]

/-- C2, counterexample: at `https://example.com/a/b/c` the path has three
(two or more) word segments, the URL has no `.git` suffix and the host is not
a named provider, yet `normalize` returns it unchanged — `.git` is appended
only for exactly-two-segment paths. -/
theorem c2_counterexample :
    specTwoOrMoreSegRepoPath ("https://example.com/a/b/c".data) = true
    ∧ endsWithL (".git".data) ("https://example.com/a/b/c".data) = false
    ∧ hostOf ("https://example.com/a/b/c".data) = some ("example.com".data)
    ∧ GitUrlValidator.normalize "https://example.com/a/b/c"
        = "https://example.com/a/b/c" := by decide

/-- C2 (amended): for every HTTP(S) URL whose cleaned form (one trailing
slash stripped from the trimmed input) does not end in `.git` and whose host
is not github.com, gitlab.com or bitbucket.org, `normalize` appends `.git`
exactly when the cleaned path consists of exactly two nonempty
word/dot/hyphen segments (which covers the `/git/`, `/repo(s)/`, `/scm/`,
`/projects/` shapes), and otherwise returns the cleaned URL unchanged. -/
theorem c2_normalize_selfhosted (url : String)
    (hscheme : startsWithL ("http://".data) (trimChars url.data) = true
      ∨ startsWithL ("https://".data) (trimChars url.data) = true)
    (clean : List Char)
    (hclean : clean = (if endsWithL ("/".data) (trimChars url.data) = true
      then (trimChars url.data).dropLast else trimChars url.data))
    (hgit : endsWithL (".git".data) clean = false)
    (hgh : hostOf clean ≠ some ("github.com".data))
    (hgl : hostOf clean ≠ some ("gitlab.com".data))
    (hbb : hostOf clean ≠ some ("bitbucket.org".data)) :
    GitUrlValidator.normalize url
      = ⟨if specExactlyTwoSegRepoPath clean = true then clean ++ ".git".data else clean⟩ := by
  have hht : ∃ t', trimChars url.data = 'h' :: t' := by
    rcases hscheme with h | h
    · obtain ⟨s, hs⟩ := (startsWithL_iff _ _).mp h
      exact ⟨"ttp://".data ++ s, by rw [hs]; rfl⟩
    · obtain ⟨s, hs⟩ := (startsWithL_iff _ _).mp h
      exact ⟨"ttps://".data ++ s, by rw [hs]; rfl⟩
  obtain ⟨t', hht⟩ := hht
  have h1 : startsWithL ("git@".data) (trimChars url.data) = false := by
    rw [hht]; exact startsWithL_cons_ne _ _ (by decide)
  have h2 : startsWithL ("ssh://".data) (trimChars url.data) = false := by
    rw [hht]; exact startsWithL_cons_ne _ _ (by decide)
  have h3 : startsWithL ("git://".data) (trimChars url.data) = false := by
    rw [hht]; exact startsWithL_cons_ne _ _ (by decide)
  have hc2 : (startsWithL ("http://".data) (trimChars url.data)
      || startsWithL ("https://".data) (trimChars url.data)) = true := by
    rcases hscheme with h | h
    · rw [h]; rfl
    · rw [h]; simp
  have hkp : GitUrlValidator.isKnownProvider clean = false :=
    isKnownProvider_eq_false_of_host hgh hgl hbb
  apply congrArg String.mk
  show GitUrlValidator.normalizeL url.data = _
  unfold GitUrlValidator.normalizeL
  simp only [h1, h2, h3, hc2, Bool.or_self, Bool.or_false, Bool.false_eq_true, if_false,
    if_true, ← hclean, hgit, hkp, looksLike_eq_exactlyTwo]

/-- Witness for C2 at a concrete self-hosted two-segment URL. -/
theorem c2_witness :
    GitUrlValidator.normalize "https://selfhosted.example/a/b"
      = "https://selfhosted.example/a/b.git" := by
  have h := c2_normalize_selfhosted "https://selfhosted.example/a/b" (by decide) _ rfl
    (by decide) (by decide) (by decide) (by decide)
  rw [h]
  decide

/-! ## C3 — conflict-avoiding placement -/

/-- The conflict loop lands on the first non-existing candidate: if the `k`
candidates from index `i` all exist and candidate `i + k` does not, the loop
started at candidate `i` with counter `i + 1` returns candidate `i + k`. -/
theorem conflictLoop_spec (pathExists : String → Bool) (ws name : String) :
    ∀ (k i fuel : Nat),
      (∀ j, j < k → pathExists (CloneLocationResolver.candidate ws name (i + j)) = true) →
      pathExists (CloneLocationResolver.candidate ws name (i + k)) = false →
      k < fuel →
      CloneLocationResolver.conflictLoop pathExists ws name fuel
        (CloneLocationResolver.candidate ws name i) (i + 1)
        = CloneLocationResolver.candidate ws name (i + k) := by
  intro k
  induction k with
  | zero =>
    intro i fuel hbusy hfree hfuel
    cases fuel with
    | zero => omega
    | succ f =>
      rw [CloneLocationResolver.conflictLoop]
      rw [if_neg (by simpa using hfree)]
      simp
  | succ k ih =>
    intro i fuel hbusy hfree hfuel
    cases fuel with
    | zero => omega
    | succ f =>
      rw [CloneLocationResolver.conflictLoop]
      rw [if_pos (by simpa using hbusy 0 (by omega))]
      have hcand : pjoin ws (name ++ "-" ++ toString (i + 1))
          = CloneLocationResolver.candidate ws name (i + 1) := rfl
      rw [hcand]
      have hbusy' : ∀ j, j < k →
          pathExists (CloneLocationResolver.candidate ws name ((i + 1) + j)) = true := by
        intro j hj
        rw [show (i + 1) + j = i + (j + 1) by omega]
        exact hbusy (j + 1) (by omega)
      have hfree' : pathExists (CloneLocationResolver.candidate ws name ((i + 1) + k))
          = false := by
        rw [show (i + 1) + k = i + (k + 1) by omega]
        exact hfree
      have := ih (i + 1) f hbusy' hfree' (by omega)
      rw [show i + (k + 1) = (i + 1) + k by omega]
      exact this

/-- C3: when the workspace has project markers and `k` is the least index
whose candidate path does not exist, `resolve` places the clone in a new
subfolder at candidate `k` — `{root}/{name}` for `k = 0`, `{root}/{name}-k`
for `k ≥ 1` (`cloneToRoot = false` and the conflict-avoiding message are the
code's representation of the spec's `NewSubfolder` mode). -/
theorem c3_resolve_conflict (pathExists : String → Bool)
    (readdir : String → Except String (List String))
    (statIsDir : String → Except String Bool)
    (homedir : String) (repository : GitRepository) (ws : String) (rest : List String)
    (fuel k : Nat)
    (hmarkers : (ProjectFileDetector.detect readdir statIsDir ws).hasCommonFiles = true)
    (hbusy : ∀ j, j < k →
      pathExists (CloneLocationResolver.candidate ws repository.name j) = true)
    (hfree : pathExists (CloneLocationResolver.candidate ws repository.name k) = false)
    (hfuel : k < fuel) :
    CloneLocationResolver.resolve pathExists readdir statIsDir homedir fuel repository
        (ws :: rest)
      = { targetPath := CloneLocationResolver.candidate ws repository.name k
          cloneToRoot := false
          message := "Cloning " ++ repository.name ++ " to new folder (avoiding conflicts)" } := by
  show (if (ProjectFileDetector.detect readdir statIsDir ws).hasCommonFiles = true
      then CloneLocationResolver.resolveForExistingProject pathExists fuel repository ws
      else CloneLocationResolver.resolveForCleanWorkspace repository ws) = _
  rw [if_pos hmarkers]
  unfold CloneLocationResolver.resolveForExistingProject
  have hloop := conflictLoop_spec pathExists ws repository.name k 0 fuel
    (by intro j hj; simpa using hbusy j hj) (by simpa using hfree) hfuel
  simp only [Nat.zero_add] at hloop
  have hcand0 : CloneLocationResolver.candidate ws repository.name 0
      = pjoin ws repository.name := rfl
  rw [hcand0] at hloop
  rw [hloop]

/-- Witness for C3: with `/w/foo` and `/w/foo-1` existing, the resolver
returns `/w/foo-2`. -/
theorem c3_witness :
    CloneLocationResolver.resolve (fun p => p == "/w/foo" || p == "/w/foo-1")
      (fun _ => .ok ["package.json"]) (fun _ => .ok false) "/home" 10
      ⟨"https://github.com/u/foo", "foo", "https://github.com/u/foo.git"⟩ ["/w"]
      = { targetPath := "/w/foo-2", cloneToRoot := false,
          message := "Cloning foo to new folder (avoiding conflicts)" } := by
  have h := c3_resolve_conflict (fun p => p == "/w/foo" || p == "/w/foo-1")
    (fun _ => .ok ["package.json"]) (fun _ => .ok false) "/home"
    ⟨"https://github.com/u/foo", "foo", "https://github.com/u/foo.git"⟩ "/w" [] 10 2
    (by decide) (by decide) (by decide) (by decide)
  rw [h]
  decide

/-! ## C4 — inspection failure is recovered conservatively -/

/-- C4: when listing the directory fails, `detect` returns the fail-safe
result: `hasCommonFiles = true` with an empty marker list (the failure is
absorbed, not propagated). -/
theorem c4_detect_error (readdir : String → Except String (List String))
    (statIsDir : String → Except String Bool) (workspacePath e : String)
    (h : readdir workspacePath = .error e) :
    ProjectFileDetector.detect readdir statIsDir workspacePath
      = { hasCommonFiles := true, detectedFiles := [] } := by
  unfold ProjectFileDetector.detect
  rw [h]

/-- Witness for C4 at a concrete failing filesystem. -/
theorem c4_witness :
    ProjectFileDetector.detect (fun _ => .error "EACCES") (fun _ => .ok true) "/ws"
      = { hasCommonFiles := true, detectedFiles := [] } :=
  c4_detect_error (fun _ => .error "EACCES") (fun _ => .ok true) "/ws" "EACCES" rfl

/-! ## C5 — structured clone failures -/

theorem startsWithL_self (l : List Char) : startsWithL l l = true :=
  (startsWithL_iff l l).mpr ⟨[], by simp⟩

theorem isInfixL_cons (n : List Char) {l : List Char} (c : Char)
    (h : isInfixL n l = true) : isInfixL n (c :: l) = true := by
  show (startsWithL n (c :: l) || isInfixL n l) = true
  rw [h]
  simp

theorem isInfixL_append (n p : List Char) : isInfixL n (p ++ n) = true := by
  induction p with
  | nil =>
    rw [List.nil_append]
    cases n with
    | nil => rfl
    | cons c cs =>
      show (startsWithL (c :: cs) (c :: cs) || isInfixL (c :: cs) cs) = true
      rw [startsWithL_self]
      rfl
  | cons c p' ih =>
    rw [List.cons_append]
    exact isInfixL_cons n c ih

/-- C5: `clone` resolves to a structured result in both failure shapes.  A
non-zero exit yields `success = false` with the captured stderr embedded in
the message (or the literal `"Unknown error"` when stderr is empty); a spawn
error yields `success = false` with a distinct `"Failed to start git
process: "` message embedding the error text.  Being a total function of the
subprocess outcome, `clone` never throws. -/
theorem c5_clone_failures (repository : GitRepository) (location : CloneLocation)
    (targetPath : String) :
    (∀ (code : Int) (stderrOutput : String), code ≠ 0 →
      (GitCloneService.clone repository location targetPath
          (.exited code stderrOutput)).success = false
      ∧ startsWithL ("Failed to clone repository: ".data)
          (GitCloneService.clone repository location targetPath
            (.exited code stderrOutput)).message.data = true
      ∧ (stderrOutput ≠ "" → isInfixL stderrOutput.data
          (GitCloneService.clone repository location targetPath
            (.exited code stderrOutput)).message.data = true)
      ∧ (stderrOutput = "" → isInfixL ("Unknown error".data)
          (GitCloneService.clone repository location targetPath
            (.exited code stderrOutput)).message.data = true))
    ∧ (∀ errorMessage : String,
      (GitCloneService.clone repository location targetPath
          (.spawnError errorMessage)).success = false
      ∧ startsWithL ("Failed to start git process: ".data)
          (GitCloneService.clone repository location targetPath
            (.spawnError errorMessage)).message.data = true
      ∧ isInfixL errorMessage.data
          (GitCloneService.clone repository location targetPath
            (.spawnError errorMessage)).message.data = true) := by
  constructor
  · intro code stderrOutput hcode
    have hm : GitCloneService.clone repository location targetPath (.exited code stderrOutput)
        = { success := false
            message := "Failed to clone repository: "
              ++ (if stderrOutput = "" then "Unknown error" else stderrOutput)
            targetPath := none } := by
      show (if code = 0 then GitCloneService.createSuccessResult repository location targetPath
        else { success := false
               message := "Failed to clone repository: "
                 ++ (if stderrOutput = "" then "Unknown error" else stderrOutput)
               targetPath := none }) = _
      rw [if_neg hcode]
    rw [hm]
    refine ⟨rfl, ?_, ?_, ?_⟩
    · rw [String.data_append]
      exact startsWithL_append_self _ _
    · intro hne
      rw [if_neg hne, String.data_append]
      exact isInfixL_append _ _
    · intro heq
      rw [if_pos heq, String.data_append]
      exact isInfixL_append _ _
  · intro errorMessage
    have hm : GitCloneService.clone repository location targetPath (.spawnError errorMessage)
        = { success := false
            message := "Failed to start git process: " ++ errorMessage
            targetPath := none } := rfl
    rw [hm]
    refine ⟨rfl, ?_, ?_⟩
    · rw [String.data_append]
      exact startsWithL_append_self _ _
    · rw [String.data_append]
      exact isInfixL_append _ _

/-- Witness for C5: the spec's own example, stderr
`"fatal: repository not found"` on exit code 1. -/
theorem c5_witness :
    (GitCloneService.clone ⟨"u", "r", "n"⟩ ⟨"/t", false, "m"⟩ "/t"
        (.exited 1 "fatal: repository not found")).success = false
    ∧ isInfixL ("fatal: repository not found".data)
        (GitCloneService.clone ⟨"u", "r", "n"⟩ ⟨"/t", false, "m"⟩ "/t"
          (.exited 1 "fatal: repository not found")).message.data = true := by
  have h := c5_clone_failures ⟨"u", "r", "n"⟩ ⟨"/t", false, "m"⟩ "/t"
  exact ⟨(h.1 1 "fatal: repository not found" (by decide)).1,
    (h.1 1 "fatal: repository not found" (by decide)).2.2.1 (by decide)⟩

/-! ## C6 — the watcher re-fires on every recognized tick -/

/-- C6: the tick sequence `["https://github.com/a/b", "garbage",
"https://github.com/a/b"]` produces `[detected(b), noRepo, detected(b)]`
(the detected repository is named `b`), and in general every tick whose text
is non-empty and recognized fires the detection callback with the freshly
classified repository — also when the text equals the previous tick's. -/
theorem c6_watcher_sequence :
    (List.map ClipboardMonitor.checkClipboard
        [ClipboardRead.ok "https://github.com/a/b", ClipboardRead.ok "garbage",
          ClipboardRead.ok "https://github.com/a/b"]
      = [WatcherEvent.detected (GitUrlValidator.createRepository "https://github.com/a/b"),
          WatcherEvent.noRepo,
          WatcherEvent.detected (GitUrlValidator.createRepository "https://github.com/a/b")])
    ∧ (GitUrlValidator.createRepository "https://github.com/a/b").name = "b"
    ∧ (∀ text : String, text ≠ "" → GitUrlValidator.isValid text = true →
        ClipboardMonitor.checkClipboard (.ok text)
          = .detected (GitUrlValidator.createRepository text)) := by
  refine ⟨by decide, by decide, ?_⟩
  intro text h1 h2
  simp [ClipboardMonitor.checkClipboard, h1, h2]

/-- Witness for C6 at a fresh recognized URL. -/
theorem c6_witness :
    ClipboardMonitor.checkClipboard (.ok "https://gitlab.com/x/y")
      = .detected (GitUrlValidator.createRepository "https://gitlab.com/x/y") :=
  c6_watcher_sequence.2.2 "https://gitlab.com/x/y" (by decide) (by decide)

/-! ## C7 — extracted names -/

theorem contains_iff_mem {α : Type} [BEq α] [LawfulBEq α] {l : List α} {a : α} :
    l.contains a = true ↔ a ∈ l := by
  simp [List.contains]

theorem no_mem_of_contains_false {α : Type} [BEq α] [LawfulBEq α] {l : List α} {a : α}
    (h : l.contains a = false) : ∀ c ∈ l, c ≠ a := by
  intro c hc he
  subst he
  rw [contains_iff_mem.mpr hc] at h
  cases h

theorem contains_false_of_no {α : Type} [BEq α] [LawfulBEq α] {l : List α} {a : α}
    (h : ∀ c ∈ l, c ≠ a) : l.contains a = false := by
  cases hc : l.contains a
  · rfl
  · exact absurd rfl (h a (contains_iff_mem.mp hc))

theorem stripGitLazy_no_slash {l : List Char} (h : ∀ c ∈ l, c ≠ '/') :
    ∀ c ∈ GitUrlValidator.stripGitLazy l, c ≠ '/' := by
  intro c hc
  unfold GitUrlValidator.stripGitLazy at hc
  by_cases hcond : (endsWithL (".git".data) l && decide (5 ≤ l.length)) = true
  · rw [if_pos hcond] at hc
    exact h c (List.mem_of_mem_take hc)
  · rw [if_neg hcond] at hc
    exact h c hc

theorem sshTailMatch_no_slash {r y : List Char}
    (h : GitUrlValidator.sshTailMatch r = some y) : ∀ c ∈ y, c ≠ '/' := by
  unfold GitUrlValidator.sshTailMatch at h
  cases hb : breakOn '/' r with
  | none =>
    rw [hb] at h
    by_cases hre : r.isEmpty = true
    · rw [if_pos hre] at h; cases h
    · rw [if_neg hre] at h
      injection h with h
      subst h
      exact stripGitLazy_no_slash (breakOn_none hb)
  | some xy =>
    obtain ⟨x, tail⟩ := xy
    rw [hb] at h
    replace h : (if (x.isEmpty || tail.isEmpty || tail.contains '/') = true then none
        else some (GitUrlValidator.stripGitLazy tail)) = some y := h
    by_cases hcond : (x.isEmpty || tail.isEmpty || tail.contains '/') = true
    · rw [if_pos hcond] at h; cases h
    · rw [if_neg hcond] at h
      injection h with h
      subst h
      simp only [Bool.or_eq_true, not_or, Bool.not_eq_true] at hcond
      exact stripGitLazy_no_slash (no_mem_of_contains_false hcond.2)

theorem sshNameMatch_no_slash : ∀ {u y : List Char},
    GitUrlValidator.sshNameMatch u = some y → ∀ c ∈ y, c ≠ '/' := by
  intro u
  induction u with
  | nil => intro y h; cases h
  | cons c rest ih =>
    intro y h
    rw [GitUrlValidator.sshNameMatch] at h
    by_cases hc : c = ':'
    · rw [if_pos hc] at h
      cases hm : GitUrlValidator.sshTailMatch rest with
      | some z =>
        rw [hm] at h
        injection h with h
        subst h
        exact sshTailMatch_no_slash hm
      | none =>
        rw [hm] at h
        exact ih h
    · rw [if_neg hc] at h
      exact ih h

theorem stdTailMatch_no_slash {r y : List Char}
    (h : GitUrlValidator.stdTailMatch r = some y) : ∀ c ∈ y, c ≠ '/' := by
  simp only [GitUrlValidator.stdTailMatch] at h
  set t := if endsWithL ("/".data) r = true then r.dropLast else r with ht
  by_cases hcond : (t.isEmpty || t.contains '/') = true
  · rw [if_pos hcond] at h; cases h
  · rw [if_neg hcond] at h
    injection h with h
    subst h
    simp only [Bool.or_eq_true, not_or, Bool.not_eq_true] at hcond
    exact stripGitLazy_no_slash (no_mem_of_contains_false hcond.2)

theorem stdNameMatch_no_slash : ∀ {u y : List Char},
    GitUrlValidator.stdNameMatch u = some y → ∀ c ∈ y, c ≠ '/' := by
  intro u
  induction u with
  | nil => intro y h; cases h
  | cons c rest ih =>
    intro y h
    rw [GitUrlValidator.stdNameMatch] at h
    by_cases hc : c = '/'
    · rw [if_pos hc] at h
      cases hm : GitUrlValidator.stdTailMatch rest with
      | some z =>
        rw [hm] at h
        injection h with h
        subst h
        exact stdTailMatch_no_slash hm
      | none =>
        rw [hm] at h
        exact ih h
    · rw [if_neg hc] at h
      exact ih h

theorem looseNameMatch_no_slash : ∀ {u y : List Char},
    GitUrlValidator.looseNameMatch u = some y → ∀ c ∈ y, c ≠ '/' := by
  intro u
  induction u with
  | nil => intro y h; cases h
  | cons c rest ih =>
    intro y h
    rw [GitUrlValidator.looseNameMatch] at h
    by_cases h1 : (c = '/' || c = ':') = true
    · rw [if_pos h1] at h
      exact ih h
    · rw [if_neg h1] at h
      by_cases h2 : (rest.contains '/' || rest.contains ':') = true
      · rw [if_pos h2] at h
        exact ih h
      · rw [if_neg h2] at h
        injection h with h
        subst h
        apply stripGitLazy_no_slash
        simp only [Bool.or_eq_true, not_or, decide_eq_true_eq] at h1
        simp only [Bool.or_eq_true, not_or, Bool.not_eq_true] at h2
        intro d hd
        rcases List.mem_cons.mp hd with rfl | hd
        · exact h1.1
        · exact no_mem_of_contains_false h2.1 d hd

theorem extractStd_no_slash (u : List Char) :
    ∀ c ∈ GitUrlValidator.extractStd u, c ≠ '/' := by
  unfold GitUrlValidator.extractStd
  cases h1 : GitUrlValidator.stdNameMatch u with
  | some n => exact stdNameMatch_no_slash h1
  | none =>
    cases h2 : GitUrlValidator.looseNameMatch u with
    | some n => exact looseNameMatch_no_slash h2
    | none =>
      intro c hc
      exact (by decide : ∀ c ∈ "repository".data, c ≠ '/') c hc

theorem extractRepositoryNameL_no_slash (u : List Char) :
    ∀ c ∈ GitUrlValidator.extractRepositoryNameL u, c ≠ '/' := by
  unfold GitUrlValidator.extractRepositoryNameL
  by_cases hcond : (u.contains '@' && u.contains ':' && !isInfixL ("://".data) u) = true
  · rw [if_pos hcond]
    cases hm : GitUrlValidator.sshNameMatch u with
    | some n => exact sshNameMatch_no_slash hm
    | none => exact extractStd_no_slash u
  · rw [if_neg hcond]
    exact extractStd_no_slash u

/-- C7, counterexample: on the bare host `https://github.com` the extractor
does not fall back to `"repository"` — the standard-URL regex matches after
the `//` and captures the host, so `"github.com"` is returned. -/
theorem c7_counterexample :
    GitUrlValidator.extractRepositoryName "https://github.com" ≠ "repository"
    ∧ GitUrlValidator.extractRepositoryName "https://github.com" = "github.com" := by
  decide

/-- C7 (amended): `extractRepositoryName` is total (never crashes); on the
bare host `https://github.com` it returns the host `"github.com"` rather than
the `"repository"` fallback; and for every input the returned name contains
no `/`. -/
theorem c7_extract_no_slash :
    GitUrlValidator.extractRepositoryName "https://github.com" = "github.com"
    ∧ ∀ url : String,
      (GitUrlValidator.extractRepositoryName url).data.contains '/' = false := by
  refine ⟨by decide, ?_⟩
  intro url
  exact contains_false_of_no (extractRepositoryNameL_no_slash url.data)

/-! ## C8 — what detect collects -/

/-- C8, counterexample: the detector collects `"package.json"` as a file
marker purely because the name appears in the listing — here the stat
function reports every path as a directory (so the entry is not a file), yet
the entry is still collected. -/
theorem c8_counterexample :
    ProjectFileDetector.detect (fun _ => .ok ["package.json"]) (fun _ => .ok true) "/w"
      = { hasCommonFiles := true, detectedFiles := ["package.json"] } := by decide

/-- The entries `detect` produces for directories all have the form
`d ++ "/"` with `d` a marker directory that the stat function confirmed. -/
theorem dirMarker_shape (statIsDir : String → Except String Bool)
    (workspacePath : String) (items : List String) :
    ∀ x ∈ (ProjectFilePatterns.COMMON_DIRECTORIES.filter
        (fun d => items.contains d)).filterMap
          (fun d => match statIsDir (pjoin workspacePath d) with
            | .ok true => some (d ++ "/")
            | .ok false => none
            | .error _ => none),
      ∃ d ∈ ProjectFilePatterns.COMMON_DIRECTORIES,
        x = d ++ "/" ∧ d ∈ items ∧ statIsDir (pjoin workspacePath d) = .ok true := by
  intro x hx
  rw [List.mem_filterMap] at hx
  obtain ⟨a, ha, hga⟩ := hx
  rw [List.mem_filter] at ha
  cases hst : statIsDir (pjoin workspacePath a) with
  | ok b =>
    cases b with
    | true =>
      rw [hst] at hga
      injection hga with hga
      exact ⟨a, ha.1, hga.symm, contains_iff_mem.mp ha.2, hst⟩
    | false => rw [hst] at hga; cases hga
  | error e => rw [hst] at hga; cases hga

/-- No marker filename is a directory entry (`d ++ "/"`), since the file list
has no trailing slashes. -/
theorem common_files_ne_dir_entries :
    ∀ x ∈ ProjectFilePatterns.COMMON_FILES,
      ∀ d ∈ ProjectFilePatterns.COMMON_DIRECTORIES, x ≠ d ++ "/" := by decide

/-- C8 (amended): on a readable directory, a marker filename is collected iff
the name appears in the listing — regardless of the entry's type, no stat is
performed for it — while a marker directory name is collected (as
`name ++ "/"`) iff it appears in the listing and stat reports a directory. -/
theorem c8_detect_markers (readdir : String → Except String (List String))
    (statIsDir : String → Except String Bool) (workspacePath : String)
    (items : List String) (h : readdir workspacePath = .ok items) :
    (∀ f ∈ ProjectFilePatterns.COMMON_FILES,
      (f ∈ (ProjectFileDetector.detect readdir statIsDir workspacePath).detectedFiles
        ↔ f ∈ items))
    ∧ (∀ d ∈ ProjectFilePatterns.COMMON_DIRECTORIES,
      ((d ++ "/") ∈ (ProjectFileDetector.detect readdir statIsDir workspacePath).detectedFiles
        ↔ d ∈ items ∧ statIsDir (pjoin workspacePath d) = .ok true)) := by
  have hdet : (ProjectFileDetector.detect readdir statIsDir workspacePath).detectedFiles
      = ProjectFilePatterns.COMMON_FILES.filter (fun file => items.contains file)
        ++ (ProjectFilePatterns.COMMON_DIRECTORIES.filter
            (fun d => items.contains d)).filterMap
              (fun d => match statIsDir (pjoin workspacePath d) with
                | .ok true => some (d ++ "/")
                | .ok false => none
                | .error _ => none) := by
    unfold ProjectFileDetector.detect
    rw [h]
  constructor
  · intro f hf
    rw [hdet, List.mem_append]
    constructor
    · rintro (hmem | hmem)
      · exact contains_iff_mem.mp (List.mem_filter.mp hmem).2
      · obtain ⟨d, hd, hshape, -, -⟩ := dirMarker_shape statIsDir workspacePath items f hmem
        exact absurd hshape (common_files_ne_dir_entries f hf d hd)
    · intro hmem
      exact Or.inl (List.mem_filter.mpr ⟨hf, contains_iff_mem.mpr hmem⟩)
  · intro d hd
    rw [hdet, List.mem_append]
    constructor
    · rintro (hmem | hmem)
      · have hdf := (List.mem_filter.mp hmem).1
        exact absurd rfl (common_files_ne_dir_entries _ hdf d hd)
      · obtain ⟨d', hd', hshape, hin, hstat⟩ :=
          dirMarker_shape statIsDir workspacePath items _ hmem
        have hdd : d' = d := by
          apply stringExt
          have := congrArg String.data hshape
          rw [String.data_append, String.data_append] at this
          exact (List.append_cancel_right this).symm
        subst hdd
        exact ⟨hin, hstat⟩
    · rintro ⟨hin, hstat⟩
      apply Or.inr
      rw [List.mem_filterMap]
      refine ⟨d, List.mem_filter.mpr ⟨hd, contains_iff_mem.mpr hin⟩, ?_⟩
      rw [hstat]

/-- Witness for C8: `src` present as a directory and `package.json` present
in the listing are both collected. -/
theorem c8_witness :
    ("package.json" ∈ (ProjectFileDetector.detect
        (fun _ => .ok ["package.json", "src"]) (fun _ => .ok true) "/w").detectedFiles
      ↔ "package.json" ∈ ["package.json", "src"])
    ∧ ("src/" ∈ (ProjectFileDetector.detect
        (fun _ => .ok ["package.json", "src"]) (fun _ => .ok true) "/w").detectedFiles
      ↔ "src" ∈ ["package.json", "src"]
        ∧ (fun _ => (.ok true : Except String Bool)) (pjoin "/w" "src") = .ok true) := by
  have h := c8_detect_markers (fun _ => .ok ["package.json", "src"]) (fun _ => .ok true)
    "/w" ["package.json", "src"] rfl
  exact ⟨h.1 "package.json" (by decide), h.2 "src" (by decide)⟩

/-! ## C9 — the stored raw URL -/

/-- C9, counterexample: an input with surrounding whitespace validates (the
validator trims before testing) but the stored `url` field is the raw,
untrimmed input, so `rawUrl` differs from the trimmed original. -/
theorem c9_counterexample :
    GitUrlValidator.isValid " https://github.com/a/b " = true
    ∧ (GitUrlValidator.createRepository " https://github.com/a/b ").url
        = " https://github.com/a/b "
    ∧ (GitUrlValidator.createRepository " https://github.com/a/b ").url
        ≠ String.mk (trimChars (" https://github.com/a/b ").data) := by decide

/-- C9 (amended): for every validated input string the constructed
repository's `url` field (the spec's `rawUrl`) is the original input exactly
as given — it is not trimmed. -/
theorem c9_rawUrl_unchanged (url : String) (_h : GitUrlValidator.isValid url = true) :
    (GitUrlValidator.createRepository url).url = url := rfl

/-- Witness for C9. -/
theorem c9_witness :
    (GitUrlValidator.createRepository "https://github.com/a/b").url
      = "https://github.com/a/b" :=
  c9_rawUrl_unchanged "https://github.com/a/b" (by decide)

/-! ## C10 — one callback per tick, stateless -/

theorem extensionStep_snd (current : Option GitRepository) (r : ClipboardRead) :
    (GitCloneExtension.extensionStep current r).2 = ClipboardMonitor.checkClipboard r := by
  unfold GitCloneExtension.extensionStep
  cases ClipboardMonitor.checkClipboard r with
  | detected repo => rfl
  | noRepo => rfl

/-- C10: on every tick exactly one of the two callbacks fires and the choice
depends only on the current clipboard sample: the events of a tick sequence
are the per-tick classification, independent of the extension's
`currentRepository` state (so a caller already idle still receives `noRepo`
again on every consecutive unrecognized tick); `noRepo` fires exactly for
empty text, unrecognized text, or a failed read, and otherwise the
detected-repository callback fires. -/
theorem c10_tick_events :
    (∀ (current : Option GitRepository) (reads : List ClipboardRead),
      (GitCloneExtension.runTicks current reads).2
        = reads.map ClipboardMonitor.checkClipboard)
    ∧ (∀ text : String, ClipboardMonitor.checkClipboard (.ok text) = .noRepo
        ↔ (text = "" ∨ GitUrlValidator.isValid text = false))
    ∧ ClipboardMonitor.checkClipboard .readError = .noRepo
    ∧ (∀ r : ClipboardRead,
        (∃ repo, ClipboardMonitor.checkClipboard r = .detected repo)
          ↔ ClipboardMonitor.checkClipboard r ≠ .noRepo) := by
  refine ⟨?_, ?_, rfl, ?_⟩
  · intro current reads
    induction reads generalizing current with
    | nil => rfl
    | cons r rs ih =>
      have hstep : GitCloneExtension.runTicks current (r :: rs)
          = ((GitCloneExtension.runTicks (GitCloneExtension.extensionStep current r).1 rs).1,
              (GitCloneExtension.extensionStep current r).2
                :: (GitCloneExtension.runTicks
                    (GitCloneExtension.extensionStep current r).1 rs).2) := rfl
      rw [hstep, List.map_cons]
      simp only [extensionStep_snd, ih]
  · intro text
    by_cases h1 : text = ""
    · simp [ClipboardMonitor.checkClipboard, h1]
    · by_cases h2 : GitUrlValidator.isValid text = true
      · simp [ClipboardMonitor.checkClipboard, h1, h2]
      · rw [Bool.not_eq_true] at h2
        simp [ClipboardMonitor.checkClipboard, h1, h2]
  · intro r
    cases hr : ClipboardMonitor.checkClipboard r with
    | detected repo => simp
    | noRepo => simp

end Glone
